import Mathlib

/-!
Shallow embedding of the pad-extract library (src/lib.rs) and verification of
its specification claims.

Modelling conventions:
* Machine integers (u32, usize) are modelled as Nat; the only place u32
  overflow can matter is the bucket-end addition in the Path decoder, where
  release-mode Rust wraps, modelled with an explicit mod 2^32.
* Byte buffers are List UInt8.
* Fallible Rust functions returning Result are modelled with POutcome:
  ok carries the returned value, err models a returned Err, and panic models
  a Rust panic (failed unwrap, out-of-range index / slice), which aborts the
  call without producing a value.
* External collaborators with fixed contracts (the ICE block cipher, the
  EUC-KR text decoder, the quicklz codec, the regex engine) are parameters:
  Ice bundles the scalar 8-byte block decrypt and the whole-section
  decrypt_auto convenience, Codec the decompress-to-size operation, Pattern a
  compiled-or-invalid regex with its match predicate, and a plain function
  List UInt8 -> String stands for the text decoder.  The multi-block parallel
  decrypt (decrypt_blocks_par::<16>) is a pure block substitution over
  consecutive 8-byte blocks of a 128-byte chunk, so it is modelled as the
  blockwise application of the scalar decrypt.
* rayon parallel iterators (par_iter, par_chunks_exact, par_sort_by_key,
  par_split) are deterministic order-preserving operations on their input;
  they are modelled by the corresponding sequential list operations.
  par_sort_by_key is an unstable comparison sort by the given key; it is
  modelled by insertion sort by the same key (any comparison sort agrees on
  all properties stated here, which never depend on the order of equal keys).
-/

/-- Outcome of a Rust call: a normal return, an Err returned to the caller
through the Result type, or a panic, which aborts without producing a value. -/
inductive POutcome (α : Type) where
  | ok (a : α)
  | err
  | panic
deriving Repr

/-- PackageRecord from src/lib.rs: {id, hash, size}, all u32. -/
structure PackageRecord where
  id : Nat
  hash : Nat
  size : Nat
deriving DecidableEq, Repr

/-- MetaRecord from src/lib.rs: seven u32 fields. -/
structure MetaRecord where
  hash : Nat
  path_id : Nat
  file_id : Nat
  package_id : Nat
  package_offset : Nat
  sz_compressed : Nat
  sz_original : Nat
deriving DecidableEq, Repr

/-- Half-open index range start..stop, modelling std::ops::Range of usize. -/
structure RangeN where
  start : Nat
  stop : Nat
deriving DecidableEq, Repr

/-- PathRecord from src/lib.rs: decoded path text plus its bucket range into
the meta table. -/
structure PathRecord where
  path : String
  file_range : RangeN
deriving DecidableEq, Repr

/-- External ICE cipher collaborator: scalar single 8-byte-block decrypt and
the decrypt-anything convenience used for the Path/File sections. -/
structure Ice where
  decryptBlock : List UInt8 → List UInt8
  decryptAuto : List UInt8 → List UInt8

/-- External quicklz codec collaborator: decompress to a declared output
size; none models a decompression error. -/
structure Codec where
  decompress : List UInt8 → Nat → Option (List UInt8)

/-- External regex collaborator: a pattern either compiles (valid) to a match
predicate over decoded text, or is syntactically invalid. -/
structure Pattern where
  valid : Bool
  isMatch : String → Bool

/-- ReadLevel from src/lib.rs, with its derived total order Raw < Decrypt <
Decompress represented through rank. -/
inductive ReadLevel where
  | Raw
  | Decrypt
  | Decompress
deriving DecidableEq, Repr

/-- Numeric rank realizing the derived Ord on ReadLevel. -/
def ReadLevel.rank : ReadLevel → Nat
  | .Raw => 0
  | .Decrypt => 1
  | .Decompress => 2

/-- MetaFile aggregate from src/lib.rs.  The PathBuf root is kept as a plain
string; it only feeds filesystem path joins, which are outside the model. -/
structure MetaFile where
  ice : Ice
  root : String
  version : Nat
  package_table : List PackageRecord
  meta_table : List MetaRecord
  path_table : List PathRecord
  file_table : List String

/-- Little-endian u32 read at a byte position; none when fewer than 4 bytes
remain, which is the error path of read_u32 on a Cursor. -/
def readU32le (l : List UInt8) (pos : Nat) : Option Nat :=
  match l.get? pos, l.get? (pos+1), l.get? (pos+2), l.get? (pos+3) with
  | some a, some b, some c, some d =>
      some (a.toNat + 256 * b.toNat + 65536 * c.toNat + 16777216 * d.toNat)
  | _, _, _, _ => none

/-- Byte slice buf[s..e] of an in-bounds range. -/
def sliceBytes (l : List UInt8) (s e : Nat) : List UInt8 := (l.drop s).take (e - s)

/-- Section kinds of the container, as in src/lib.rs. -/
inductive BlockType where
  | Packages
  | Metas
  | Paths
  | Files

/-- Bytes per count unit for each section: fixed record size for
Packages/Metas, one byte for Paths/Files whose count is a byte length. -/
def BlockType.entrySize : BlockType → Nat
  | .Packages => 12
  | .Metas => 28
  | .Paths => 1
  | .Files => 1

/-- Models block_range: read the u32 count at the cursor, compute the section
range, advance the cursor.  none models the Err propagated by the question
mark operator when the 4 count bytes cannot be read; no bounds check is made
against the end (the Rust code only calls set_position). -/
def block_range (b : BlockType) (buf : List UInt8) (pos : Nat) : Option (Nat × Nat) :=
  (readU32le buf pos).map (fun count => (pos + 4, pos + 4 + count * b.entrySize))

/-- Little-endian u32 value of four explicit bytes. -/
def le32 (a b c d : UInt8) : Nat :=
  a.toNat + 256 * b.toNat + 65536 * c.toNat + 16777216 * d.toNat

/-- PackageRecord::many_from_le_bytes: decode consecutive 12-byte chunks as
three little-endian u32 fields; par_chunks_exact drops a trailing partial
chunk. -/
def PackageRecord.many_from_le_bytes : List UInt8 → List PackageRecord
  | a0::a1::a2::a3::a4::a5::a6::a7::a8::a9::a10::a11::rest =>
    ⟨le32 a0 a1 a2 a3, le32 a4 a5 a6 a7, le32 a8 a9 a10 a11⟩
      :: PackageRecord.many_from_le_bytes rest
  | _ => []

/-- MetaRecord::many_from_le_bytes: decode consecutive 28-byte chunks as
seven little-endian u32 fields; par_chunks_exact drops a trailing partial
chunk. -/
def MetaRecord.many_from_le_bytes : List UInt8 → List MetaRecord
  | a0::a1::a2::a3::a4::a5::a6::a7::a8::a9::a10::a11::a12::a13::
      a14::a15::a16::a17::a18::a19::a20::a21::a22::a23::a24::a25::a26::a27::rest =>
    ⟨le32 a0 a1 a2 a3, le32 a4 a5 a6 a7, le32 a8 a9 a10 a11, le32 a12 a13 a14 a15,
      le32 a16 a17 a18 a19, le32 a20 a21 a22 a23, le32 a24 a25 a26 a27⟩
      :: MetaRecord.many_from_le_bytes rest
  | _ => []

/-- Record-parsing loop of PathRecord::many_from_encrypted_le_bytes over the
trimmed byte region: while the cursor is before the end, read two u32 values
(panicking, via unwrap, if fewer than 4 bytes remain), read a NUL-terminated
string (read_until reads to end of data when no NUL occurs, and the following
pop drops the terminator or, at end of data, the last byte), decode it, and
push the record.  The bucket end is the u32 wrapping sum start + len. -/
def PathRecord.decodeLoopGo (dec : List UInt8 → String) (bytes : List UInt8) :
    Nat → Nat → POutcome (List PathRecord)
  | 0, _ => .panic
  | fuel+1, pos =>
    if pos < bytes.length then
      match readU32le bytes pos, readU32le bytes (pos + 4) with
      | some start, some len =>
        let rest := bytes.drop (pos + 8)
        match rest.findIdx? (fun x => x == 0) with
        | some i =>
          match PathRecord.decodeLoopGo dec bytes fuel (pos + 8 + i + 1) with
          | .ok t => .ok (⟨dec (rest.take i), ⟨start, (start + len) % 4294967296⟩⟩ :: t)
          | .err => .err
          | .panic => .panic
        | none => .ok [⟨dec rest.dropLast, ⟨start, (start + len) % 4294967296⟩⟩]
      | _, _ => .panic
    else .ok []

/-- Entry point of the record-parsing loop.  The fuel argument only bounds
the recursion depth for structural termination; each loop iteration advances
the cursor by at least nine bytes, so a fuel of length + 1 is never
exhausted. -/
def PathRecord.decodeLoop (dec : List UInt8 → String) (bytes : List UInt8) (pos : Nat) :
    POutcome (List PathRecord) :=
  PathRecord.decodeLoopGo dec bytes (bytes.length + 1) pos

/-- PathRecord::many_from_encrypted_le_bytes: decrypt the whole section in
place, locate the last non-zero byte from the end (unwrap panics when every
byte is zero), keep one byte beyond it (trimmed length is len - position + 1,
which is out of bounds, hence a panic, when the final byte is non-zero), and
run the record loop on the trimmed region. -/
def PathRecord.many_from_encrypted_le_bytes (dec : List UInt8 → String) (ice : Ice)
    (sec : List UInt8) : POutcome (List PathRecord) :=
  let bytes := ice.decryptAuto sec
  match bytes.reverse.findIdx? (fun x => x != 0) with
  | none => .panic
  | some p =>
    let trimmed := bytes.length - p + 1
    if trimmed ≤ bytes.length then PathRecord.decodeLoop dec (bytes.take trimmed) 0
    else .panic

/-- FileRecord::many_from_encrypted_le_bytes: decrypt the section, trim the
zero tail (unwrap panics when every byte is zero), split the trimmed region
on NUL bytes and decode each piece. -/
def FileRecord.many_from_encrypted_le_bytes (dec : List UInt8 → String) (ice : Ice)
    (sec : List UInt8) : POutcome (List String) :=
  let bytes := ice.decryptAuto sec
  match bytes.reverse.findIdx? (fun x => x != 0) with
  | none => .panic
  | some p => .ok (((bytes.take (bytes.length - p)).splitOn 0).map dec)

/-- Meta-table sort by file_id, modelling par_sort_by_key. -/
def sortByFileId (l : List MetaRecord) : List MetaRecord :=
  List.insertionSort (fun a b => a.file_id ≤ b.file_id) l

/-- MetaFile::new: read the version (unwrap: panic when unreadable), then for
each of the four sections read its range with block_range (Err propagates)
and slice the buffer at that range (a panic when the computed end exceeds the
buffer length, as Rust range-slicing panics out of bounds), decoding each
section; the meta table is sorted by file_id.  root is left empty. -/
def MetaFile.new (dec : List UInt8 → String) (ice : Ice) (buf : List UInt8) :
    POutcome MetaFile :=
  match readU32le buf 0 with
  | none => .panic
  | some version =>
    match block_range .Packages buf 4 with
    | none => .err
    | some (s1, e1) =>
      if e1 ≤ buf.length then
        let package_table := PackageRecord.many_from_le_bytes (sliceBytes buf s1 e1)
        match block_range .Metas buf e1 with
        | none => .err
        | some (s2, e2) =>
          if e2 ≤ buf.length then
            let meta_table := sortByFileId (MetaRecord.many_from_le_bytes (sliceBytes buf s2 e2))
            match block_range .Paths buf e2 with
            | none => .err
            | some (s3, e3) =>
              if e3 ≤ buf.length then
                match PathRecord.many_from_encrypted_le_bytes dec ice (sliceBytes buf s3 e3) with
                | .panic => .panic
                | .err => .err
                | .ok path_table =>
                  match block_range .Files buf e3 with
                  | none => .err
                  | some (s4, e4) =>
                    if e4 ≤ buf.length then
                      match FileRecord.many_from_encrypted_le_bytes dec ice (sliceBytes buf s4 e4) with
                      | .panic => .panic
                      | .err => .err
                      | .ok file_table =>
                        .ok ⟨ice, "", version, package_table, meta_table, path_table, file_table⟩
                    else .panic
              else .panic
          else .panic
      else .panic

/-- Rust range-slicing of a vector at a half-open range: defined exactly when
start is at most stop and stop is at most the length (otherwise Rust panics),
yielding the contiguous sub-list. -/
def sliceRange (l : List MetaRecord) (r : RangeN) : Option (List MetaRecord) :=
  if r.start ≤ r.stop ∧ r.stop ≤ l.length then
    some ((l.drop r.start).take (r.stop - r.start))
  else none

/-- Body of MetaFile::filter_by_path after pattern compilation: walk the path
table in order, and for each record whose path text matches, append the slice
of the meta table at its file_range; none models the panic raised by an
out-of-range slice. -/
def collectSlices (mt : List MetaRecord) (p : Pattern) :
    List PathRecord → Option (List MetaRecord)
  | [] => some []
  | pr :: rest =>
    if p.isMatch pr.path then
      match sliceRange mt pr.file_range, collectSlices mt p rest with
      | some s, some t => some (s ++ t)
      | _, _ => none
    else collectSlices mt p rest

/-- MetaFile::filter_by_path: Regex::new(re_pat).unwrap() panics on an invalid
pattern before anything is touched; otherwise the meta table is replaced by
the concatenated bucket slices of the matching paths.  The function returns
Ok(()) in Rust; the model carries the updated aggregate in ok. -/
def MetaFile.filter_by_path (m : MetaFile) (p : Pattern) : POutcome MetaFile :=
  if p.valid then
    match collectSlices m.meta_table p m.path_table with
    | some t => .ok { m with meta_table := t }
    | none => .panic
  else .panic

/-- Body of MetaFile::filter_by_file after pattern compilation: keep, in
order, the meta records whose file-table entry at file_id matches; none
models the panic raised by an out-of-bounds file_id index. -/
def keepByFile (ft : List String) (p : Pattern) :
    List MetaRecord → Option (List MetaRecord)
  | [] => some []
  | r :: rest =>
    match ft.get? r.file_id with
    | none => none
    | some name =>
      match keepByFile ft p rest with
      | none => none
      | some t => some (if p.isMatch name then r :: t else t)

/-- MetaFile::filter_by_file: Regex::new(pattern).unwrap() panics on an
invalid pattern before anything is touched; otherwise the meta table is
replaced by its matching records in their current order. -/
def MetaFile.filter_by_file (m : MetaFile) (p : Pattern) : POutcome MetaFile :=
  if p.valid then
    match keepByFile m.file_table p m.meta_table with
    | some t => .ok { m with meta_table := t }
    | none => .panic
  else .panic

/-- Scalar-remainder decryption: decrypt each complete 8-byte block in order
with the cipher and leave the trailing partial block (fewer than 8 bytes)
untouched.  This models chunks_exact_mut(8) with scalar Ice::decrypt on each
chunk; the remainder of chunks_exact is not visited. -/
def decryptChunks8 (ice : Ice) : List UInt8 → List UInt8
  | a0::a1::a2::a3::a4::a5::a6::a7::rest =>
    ice.decryptBlock [a0,a1,a2,a3,a4,a5,a6,a7] ++ decryptChunks8 ice rest
  | l => l

/-- In-place decryption stage of MetaFile::read: par_chunks_exact_mut(128)
processes each complete 128-byte chunk with decrypt_blocks_par::<16> (the
cipher's bulk mode over the chunk's sixteen 8-byte blocks, modelled
blockwise), then the remainder (fewer than 128 bytes) is processed in 8-byte
chunks with the scalar decrypt, leaving a final partial block untouched. -/
def decryptBufGo (ice : Ice) : Nat → List UInt8 → List UInt8
  | 0, l => decryptChunks8 ice l
  | fuel+1, l =>
    if 128 ≤ l.length then
      decryptChunks8 ice (l.take 128) ++ decryptBufGo ice fuel (l.drop 128)
    else decryptChunks8 ice l

/-- Entry point of the decryption stage.  The fuel argument only bounds the
number of 128-byte chunks for structural termination; a fuel of the buffer
length is never exhausted. -/
def decryptBuf (ice : Ice) (l : List UInt8) : List UInt8 := decryptBufGo ice l.length l

/-- Truncation step at the end of MetaFile::read at Decompress level: when
sz_original is smaller than sz_compressed the buffer is cut to sz_original
bytes by slicing, which panics when the buffer is shorter than that. -/
def truncStep (record : MetaRecord) (b : List UInt8) : POutcome (List UInt8) :=
  if record.sz_original < record.sz_compressed then
    if record.sz_original ≤ b.length then .ok (b.take record.sz_original) else .panic
  else .ok b

/-- Processing stages of MetaFile::read after the raw bytes are in hand:
optionally decrypt (level at least Decrypt and the file name does not end in
.dbss), and optionally decompress: at level at least Decompress the codec
runs when sz_original exceeds sz_compressed or when the file is not a .dbss
and the first byte is the quicklz sentinel 0x6E, and afterwards the buffer
is truncated to sz_original when that is smaller than sz_compressed. -/
def MetaFile.readBody (m : MetaFile) (record : MetaRecord) (level : ReadLevel)
    (file_name : String) (codec : Codec) (buf : List UInt8) : POutcome (List UInt8) :=
  let is_dbss := file_name.endsWith ".dbss"
  let buf := if ReadLevel.Decrypt.rank ≤ level.rank ∧ is_dbss = false then
      decryptBuf m.ice buf
    else buf
  if ReadLevel.Decompress.rank ≤ level.rank then
    if record.sz_compressed < record.sz_original
        ∨ (is_dbss = false ∧ buf.head? = some 110) then
      match codec.decompress buf record.sz_original with
      | none => .err
      | some d => truncStep record d
    else truncStep record buf
  else .ok buf

/-- Raw byte range of a record inside its package file content. -/
def rawBytes (record : MetaRecord) (content : List UInt8) : List UInt8 :=
  (content.drop record.package_offset).take record.sz_compressed

/-- MetaFile::read: open the package file (pkg is none when the file is
missing: Err), seek to package_offset and read exactly sz_compressed bytes
(Err on a short read), look up the file name (an out-of-bounds file_id
panics), then run the decrypt and decompress stages of readBody. -/
def MetaFile.read (m : MetaFile) (record : MetaRecord) (level : ReadLevel)
    (pkg : Option (List UInt8)) (codec : Codec) : POutcome (List UInt8) :=
  match pkg with
  | none => .err
  | some content =>
    if record.package_offset + record.sz_compressed ≤ content.length then
      match m.file_table.get? record.file_id with
      | none => .panic
      | some file_name => m.readBody record level file_name codec (rawBytes record content)
    else .err

/-- Specification-side description of filter_by_path (from the spec text):
the concatenation, in path-table order, of the contiguous meta-table slices
at the file_range of each path record whose text matches the pattern. -/
def pathFilterSpec (m : MetaFile) (p : Pattern) : List MetaRecord :=
  ((m.path_table.filter (fun pr => p.isMatch pr.path)).map
    (fun pr => (m.meta_table.drop pr.file_range.start).take
      (pr.file_range.stop - pr.file_range.start))).flatten

/-- Maximal run of complete 8-byte blocks of a buffer, in order. -/
def chunks8 : List UInt8 → List (List UInt8)
  | a0::a1::a2::a3::a4::a5::a6::a7::rest => [a0,a1,a2,a3,a4,a5,a6,a7] :: chunks8 rest
  | _ => []

/-- Specification-side description of the decryption stage (claim C10): every
complete 8-byte block of the buffer decrypted blockwise, with the final
partial block, the bytes past position 8 * (length / 8), appended untouched. -/
def alignedBlockDecrypt (ice : Ice) (l : List UInt8) : List UInt8 :=
  ((chunks8 l).map ice.decryptBlock).flatten ++ l.drop (8 * (l.length / 8))

/-- Computed section ends of a container buffer, section by section, as far
as the leading counts are readable: packages end, metas end, paths end,
files end (built from the same block_range walk as MetaFile::new). -/
def sectionEnds (buf : List UInt8) : List Nat :=
  match block_range .Packages buf 4 with
  | none => []
  | some (_, e1) =>
    match block_range .Metas buf e1 with
    | none => [e1]
    | some (_, e2) =>
      match block_range .Paths buf e2 with
      | none => [e1, e2]
      | some (_, e3) =>
        match block_range .Files buf e3 with
        | none => [e1, e2, e3]
        | some (_, e4) => [e1, e2, e3, e4]

/-- Foreign-key validity of an aggregate: every meta record indexes inside
the path and file tables. -/
abbrev validIdx (m : MetaFile) : Prop :=
  ∀ r ∈ m.meta_table, r.path_id < m.path_table.length ∧ r.file_id < m.file_table.length

/-- One filter call, by path or by file. -/
inductive FilterOp where
  | byPath (p : Pattern)
  | byFile (p : Pattern)

/-- Application of one filter call. -/
def applyOp (m : MetaFile) : FilterOp → POutcome MetaFile
  | .byPath p => m.filter_by_path p
  | .byFile p => m.filter_by_file p

/-- Sequential application of a list of filter calls, stopping at the first
error or panic. -/
def applyFilters (m : MetaFile) : List FilterOp → POutcome MetaFile
  | [] => .ok m
  | op :: ops =>
    match applyOp m op with
    | .ok m2 => applyFilters m2 ops
    | .err => .err
    | .panic => .panic

/-- Fixed contract of the external cipher: decrypting an 8-byte block yields
8 bytes (the Rust call decrypts in place). -/
def IceBlockLen (ice : Ice) : Prop :=
  ∀ b : List UInt8, b.length = 8 → (ice.decryptBlock b).length = 8

/-- Fixed contract of the external codec: a successful decompress-to-size
returns exactly the requested number of bytes. -/
def CodecExact (c : Codec) : Prop :=
  ∀ data n out, c.decompress data n = some out → out.length = n

/-- Identity cipher used for concrete evaluations. -/
def iceId : Ice := ⟨fun l => l, fun l => l⟩

/-- Byte decoder used for concrete evaluations: each byte as one character
(agrees with EUC-KR on ASCII). -/
def decAscii (l : List UInt8) : String := String.mk (l.map (fun b => Char.ofNat b.toNat))

/-- Codec used for concrete evaluations: returns the requested number of
zero bytes, satisfying CodecExact. -/
def codecZeros : Codec := ⟨fun _ n => some (List.replicate n 0)⟩

/-- Always-matching valid pattern. -/
def patAll : Pattern := ⟨true, fun _ => true⟩

/-- Syntactically invalid pattern (Regex::new fails on it). -/
def patBad : Pattern := ⟨false, fun _ => false⟩

/-- Well-formed 106-byte fixture container: version 1; one package record
(2,3,4); two meta records with file ids 1 and 0 (out of order, so the
construction sort is visible); one path record with text "a" and bucket
0..2; two file names "b" and "c". -/
def fixtureBuf : List UInt8 :=
  [1,0,0,0,
   1,0,0,0,  2,0,0,0, 3,0,0,0, 4,0,0,0,
   2,0,0,0,
     7,0,0,0, 0,0,0,0, 1,0,0,0, 2,0,0,0, 0,0,0,0, 4,0,0,0, 4,0,0,0,
     9,0,0,0, 0,0,0,0, 0,0,0,0, 2,0,0,0, 4,0,0,0, 2,0,0,0, 2,0,0,0,
   10,0,0,0,
     0,0,0,0, 2,0,0,0, 97, 0,
   8,0,0,0,
     98,0, 99,0, 0,0,0,0]

/-- Aggregate produced by MetaFile.new on the fixture container. -/
def fixtureMF : MetaFile :=
  { ice := iceId
    root := ""
    version := 1
    package_table := [⟨2,3,4⟩]
    meta_table := [⟨9,0,0,2,4,2,2⟩, ⟨7,0,1,2,0,4,4⟩]
    path_table := [⟨"a", ⟨0,2⟩⟩]
    file_table := ["b", "c"] }

theorem iceId_blockLen : IceBlockLen iceId := fun _ h => h

theorem codecZeros_exact : CodecExact codecZeros := by
  intro data n out h
  simp only [codecZeros, Option.some.injEq] at h
  simp [← h]

theorem cons8_of_le_length (l : List UInt8) (h8 : 8 ≤ l.length) :
    ∃ a0 a1 a2 a3 a4 a5 a6 a7 t, l = a0::a1::a2::a3::a4::a5::a6::a7::t := by
  rcases l with _|⟨a0,l⟩; · simp at h8
  rcases l with _|⟨a1,l⟩; · simp at h8
  rcases l with _|⟨a2,l⟩; · simp at h8
  rcases l with _|⟨a3,l⟩; · simp at h8
  rcases l with _|⟨a4,l⟩; · simp at h8
  rcases l with _|⟨a5,l⟩; · simp at h8
  rcases l with _|⟨a6,l⟩; · simp at h8
  rcases l with _|⟨a7,l⟩; · simp at h8
  exact ⟨a0,a1,a2,a3,a4,a5,a6,a7,l,rfl⟩

theorem length_decryptChunks8 (ice : Ice) (hice : IceBlockLen ice) (l : List UInt8) :
    (decryptChunks8 ice l).length = l.length := by
  induction l using decryptChunks8.induct ice with
  | case1 a0 a1 a2 a3 a4 a5 a6 a7 rest ih =>
    simp [decryptChunks8, hice [a0,a1,a2,a3,a4,a5,a6,a7] (by simp), ih]
    omega
  | case2 l h => simp [decryptChunks8, h]

theorem decryptChunks8_append (ice : Ice) (a b : List UInt8) (h : a.length % 8 = 0) :
    decryptChunks8 ice (a ++ b) = decryptChunks8 ice a ++ decryptChunks8 ice b := by
  induction a using decryptChunks8.induct ice with
  | case1 a0 a1 a2 a3 a4 a5 a6 a7 rest ih =>
    have hr : rest.length % 8 = 0 := by simp at h; omega
    simp [decryptChunks8, ih hr]
  | case2 a hne =>
    have hlt : a.length < 8 := by
      by_contra hge
      obtain ⟨x0,x1,x2,x3,x4,x5,x6,x7,t,rfl⟩ := cons8_of_le_length a (by omega)
      exact hne x0 x1 x2 x3 x4 x5 x6 x7 t rfl
    have : a.length = 0 := by omega
    have : a = [] := List.length_eq_zero.mp this
    subst this
    simp [decryptChunks8]

theorem decryptBufGo_eq (ice : Ice) (fuel : Nat) (l : List UInt8) :
    decryptBufGo ice fuel l = decryptChunks8 ice l := by
  induction fuel generalizing l with
  | zero => rfl
  | succ fuel ih =>
    by_cases h : 128 ≤ l.length
    · have htk : (l.take 128).length % 8 = 0 := by
        simp [List.length_take]
        omega
      calc decryptBufGo ice (fuel+1) l
          = decryptChunks8 ice (l.take 128) ++ decryptBufGo ice fuel (l.drop 128) := by
            simp [decryptBufGo, h]
        _ = decryptChunks8 ice (l.take 128) ++ decryptChunks8 ice (l.drop 128) := by rw [ih]
        _ = decryptChunks8 ice (l.take 128 ++ l.drop 128) := by
            rw [decryptChunks8_append ice _ _ htk]
        _ = decryptChunks8 ice l := by rw [List.take_append_drop]
    · simp [decryptBufGo, h]

theorem decryptBuf_eq (ice : Ice) (l : List UInt8) :
    decryptBuf ice l = decryptChunks8 ice l := decryptBufGo_eq ice l.length l

theorem length_decryptBuf (ice : Ice) (hice : IceBlockLen ice) (l : List UInt8) :
    (decryptBuf ice l).length = l.length := by
  rw [decryptBuf_eq]; exact length_decryptChunks8 ice hice l

theorem decryptChunks8_eq_aligned (ice : Ice) (l : List UInt8) :
    decryptChunks8 ice l = alignedBlockDecrypt ice l := by
  induction l using decryptChunks8.induct ice with
  | case1 a0 a1 a2 a3 a4 a5 a6 a7 rest ih =>
    have hlen : (a0::a1::a2::a3::a4::a5::a6::a7::rest).length = rest.length + 8 := by
      simp only [List.length_cons]
    have key : (a0::a1::a2::a3::a4::a5::a6::a7::rest).drop
        (8 * ((a0::a1::a2::a3::a4::a5::a6::a7::rest).length / 8))
        = rest.drop (8 * (rest.length / 8)) := by
      rw [hlen, Nat.add_div_right _ (by norm_num), Nat.mul_add, Nat.mul_one]
      have h8 : (8 : Nat) * (rest.length / 8) + 8 = 8 + 8 * (rest.length / 8) := by ring
      rw [h8, ← List.drop_drop]
      rfl
    unfold alignedBlockDecrypt
    rw [key]
    have hck : chunks8 (a0::a1::a2::a3::a4::a5::a6::a7::rest)
        = [a0,a1,a2,a3,a4,a5,a6,a7] :: chunks8 rest := rfl
    rw [hck]
    simp only [List.map_cons, List.flatten_cons, List.append_assoc]
    show Ice.decryptBlock ice [a0,a1,a2,a3,a4,a5,a6,a7] ++ decryptChunks8 ice rest = _
    rw [ih]
    unfold alignedBlockDecrypt
    simp [List.append_assoc]
  | case2 l hne =>
    have hlt : l.length < 8 := by
      by_contra hge
      obtain ⟨x0,x1,x2,x3,x4,x5,x6,x7,t,rfl⟩ := cons8_of_le_length l (by omega)
      exact hne x0 x1 x2 x3 x4 x5 x6 x7 t rfl
    have hdiv : l.length / 8 = 0 := Nat.div_eq_of_lt hlt
    have hc : chunks8 l = [] := by
      simp [chunks8, hne]
    simp [decryptChunks8, hne, alignedBlockDecrypt, hc, hdiv]

theorem length_alignedFlat (ice : Ice) (hice : IceBlockLen ice) (l : List UInt8) :
    ((chunks8 l).map ice.decryptBlock).flatten.length = 8 * (l.length / 8) := by
  induction l using chunks8.induct with
  | case1 a0 a1 a2 a3 a4 a5 a6 a7 rest ih =>
    have hlen : (a0::a1::a2::a3::a4::a5::a6::a7::rest).length = rest.length + 8 := by
      simp only [List.length_cons]
    have hck : chunks8 (a0::a1::a2::a3::a4::a5::a6::a7::rest)
        = [a0,a1,a2,a3,a4,a5,a6,a7] :: chunks8 rest := rfl
    rw [hck, List.map_cons, List.flatten_cons, List.length_append, ih,
      hice [a0,a1,a2,a3,a4,a5,a6,a7] (by simp), hlen,
      Nat.add_div_right _ (by norm_num)]
    ring
  | case2 l hne =>
    have hlt : l.length < 8 := by
      by_contra hge
      obtain ⟨x0,x1,x2,x3,x4,x5,x6,x7,t,rfl⟩ := cons8_of_le_length l (by omega)
      exact hne x0 x1 x2 x3 x4 x5 x6 x7 t rfl
    have hc : chunks8 l = [] := by simp [chunks8, hne]
    simp [hc, Nat.div_eq_of_lt hlt]

theorem alignedBlockDecrypt_drop (ice : Ice) (hice : IceBlockLen ice) (l : List UInt8) :
    (alignedBlockDecrypt ice l).drop (8 * (l.length / 8)) = l.drop (8 * (l.length / 8)) := by
  conv in (alignedBlockDecrypt ice l).drop _ =>
    rw [alignedBlockDecrypt, ← length_alignedFlat ice hice l, List.drop_left]
  rw [length_alignedFlat ice hice l]

theorem sortByFileId_sorted (l : List MetaRecord) :
    (sortByFileId l).Pairwise (fun a b => a.file_id ≤ b.file_id) := by
  haveI ht : IsTotal MetaRecord (fun a b => a.file_id ≤ b.file_id) :=
    ⟨fun a b => Nat.le_total _ _⟩
  haveI htr : IsTrans MetaRecord (fun a b => a.file_id ≤ b.file_id) :=
    ⟨fun a b c hab hbc => Nat.le_trans hab hbc⟩
  exact List.sorted_insertionSort _ l

theorem mem_sortByFileId (r : MetaRecord) (l : List MetaRecord) :
    r ∈ sortByFileId l ↔ r ∈ l :=
  (List.perm_insertionSort _ l).mem_iff

theorem MetaFile.new_ok_inv (dec : List UInt8 → String) (ice : Ice) (buf : List UInt8)
    (mf : MetaFile) (h : MetaFile.new dec ice buf = POutcome.ok mf) :
    ∃ version s1 e1 s2 e2 s3 e3 s4 e4 ptbl ftbl,
      readU32le buf 0 = some version ∧
      block_range .Packages buf 4 = some (s1, e1) ∧ e1 ≤ buf.length ∧
      block_range .Metas buf e1 = some (s2, e2) ∧ e2 ≤ buf.length ∧
      block_range .Paths buf e2 = some (s3, e3) ∧ e3 ≤ buf.length ∧
      PathRecord.many_from_encrypted_le_bytes dec ice (sliceBytes buf s3 e3)
        = POutcome.ok ptbl ∧
      block_range .Files buf e3 = some (s4, e4) ∧ e4 ≤ buf.length ∧
      FileRecord.many_from_encrypted_le_bytes dec ice (sliceBytes buf s4 e4)
        = POutcome.ok ftbl ∧
      mf = ⟨ice, "", version,
        PackageRecord.many_from_le_bytes (sliceBytes buf s1 e1),
        sortByFileId (MetaRecord.many_from_le_bytes (sliceBytes buf s2 e2)),
        ptbl, ftbl⟩ := by
  simp only [MetaFile.new] at h
  cases hv : readU32le buf 0 with
  | none => simp only [hv] at h; exact POutcome.noConfusion h
  | some v =>
  simp only [hv] at h
  cases h1 : block_range .Packages buf 4 with
  | none => simp only [h1] at h; exact POutcome.noConfusion h
  | some r1 =>
  obtain ⟨s1, e1⟩ := r1
  simp only [h1] at h
  by_cases hb1 : e1 ≤ buf.length
  case neg => rw [if_neg hb1] at h; exact POutcome.noConfusion h
  rw [if_pos hb1] at h
  cases h2 : block_range .Metas buf e1 with
  | none => simp only [h2] at h; exact POutcome.noConfusion h
  | some r2 =>
  obtain ⟨s2, e2⟩ := r2
  simp only [h2] at h
  by_cases hb2 : e2 ≤ buf.length
  case neg => rw [if_neg hb2] at h; exact POutcome.noConfusion h
  rw [if_pos hb2] at h
  cases h3 : block_range .Paths buf e2 with
  | none => simp only [h3] at h; exact POutcome.noConfusion h
  | some r3 =>
  obtain ⟨s3, e3⟩ := r3
  simp only [h3] at h
  by_cases hb3 : e3 ≤ buf.length
  case neg => rw [if_neg hb3] at h; exact POutcome.noConfusion h
  rw [if_pos hb3] at h
  cases hp : PathRecord.many_from_encrypted_le_bytes dec ice (sliceBytes buf s3 e3) with
  | err => simp only [hp] at h; exact POutcome.noConfusion h
  | panic => simp only [hp] at h; exact POutcome.noConfusion h
  | ok ptbl =>
  simp only [hp] at h
  cases h4 : block_range .Files buf e3 with
  | none => simp only [h4] at h; exact POutcome.noConfusion h
  | some r4 =>
  obtain ⟨s4, e4⟩ := r4
  simp only [h4] at h
  by_cases hb4 : e4 ≤ buf.length
  case neg => rw [if_neg hb4] at h; exact POutcome.noConfusion h
  rw [if_pos hb4] at h
  cases hf : FileRecord.many_from_encrypted_le_bytes dec ice (sliceBytes buf s4 e4) with
  | err => simp only [hf] at h; exact POutcome.noConfusion h
  | panic => simp only [hf] at h; exact POutcome.noConfusion h
  | ok ftbl =>
  simp only [hf] at h
  cases h
  exact ⟨v, s1, e1, s2, e2, s3, e3, s4, e4, ptbl, ftbl,
    rfl, rfl, hb1, h2, hb2, h3, hb3, hp, h4, hb4, hf, rfl⟩

theorem MetaFile.read_ok_inv (m : MetaFile) (record : MetaRecord) (level : ReadLevel)
    (pkg : Option (List UInt8)) (codec : Codec) (b : List UInt8)
    (h : m.read record level pkg codec = POutcome.ok b) :
    ∃ content name, pkg = some content ∧
      record.package_offset + record.sz_compressed ≤ content.length ∧
      m.file_table.get? record.file_id = some name ∧
      m.readBody record level name codec (rawBytes record content) = POutcome.ok b := by
  unfold MetaFile.read at h
  cases pkg with
  | none => exact POutcome.noConfusion h
  | some content =>
    by_cases hb : record.package_offset + record.sz_compressed ≤ content.length
    · simp only [if_pos hb] at h
      cases hname : m.file_table.get? record.file_id with
      | none => simp only [hname] at h; exact POutcome.noConfusion h
      | some name =>
        simp only [hname] at h
        exact ⟨content, name, rfl, hb, rfl, h⟩
    · simp only [if_neg hb] at h; exact POutcome.noConfusion h

theorem MetaFile.read_eq_body (m : MetaFile) (record : MetaRecord) (level : ReadLevel)
    (content : List UInt8) (name : String) (codec : Codec)
    (hb : record.package_offset + record.sz_compressed ≤ content.length)
    (hname : m.file_table.get? record.file_id = some name) :
    m.read record level (some content) codec
      = m.readBody record level name codec (rawBytes record content) := by
  unfold MetaFile.read
  simp only [hname, if_pos hb]

theorem MetaFile.readBody_raw (m : MetaFile) (record : MetaRecord) (name : String)
    (codec : Codec) (buf : List UInt8) :
    m.readBody record .Raw name codec buf = POutcome.ok buf := by
  unfold MetaFile.readBody
  simp [ReadLevel.rank]

theorem MetaFile.readBody_decrypt (m : MetaFile) (record : MetaRecord) (name : String)
    (codec : Codec) (buf : List UInt8) :
    m.readBody record .Decrypt name codec buf
      = POutcome.ok (if name.endsWith ".dbss" = false then decryptBuf m.ice buf else buf) := by
  unfold MetaFile.readBody
  simp [ReadLevel.rank]

/-- Decompress stage of MetaFile::read in isolation, applied to the buffer
produced by the decrypt stage. -/
def decompressStage (record : MetaRecord) (codec : Codec) (dbss : Bool)
    (buf : List UInt8) : POutcome (List UInt8) :=
  if record.sz_compressed < record.sz_original ∨ (dbss = false ∧ buf.head? = some 110) then
    match codec.decompress buf record.sz_original with
    | none => POutcome.err
    | some d => truncStep record d
  else truncStep record buf

theorem MetaFile.readBody_decompress (m : MetaFile) (record : MetaRecord) (name : String)
    (codec : Codec) (buf : List UInt8) :
    m.readBody record .Decompress name codec buf
      = decompressStage record codec (name.endsWith ".dbss")
          (if name.endsWith ".dbss" = false then decryptBuf m.ice buf else buf) := by
  unfold MetaFile.readBody decompressStage
  simp [ReadLevel.rank]

theorem rawBytes_length (record : MetaRecord) (content : List UInt8)
    (hb : record.package_offset + record.sz_compressed ≤ content.length) :
    (rawBytes record content).length = record.sz_compressed := by
  unfold rawBytes
  simp only [List.length_take, List.length_drop]
  omega

theorem truncStep_eq (record : MetaRecord) (b : List UInt8)
    (h : record.sz_original < record.sz_compressed → record.sz_original ≤ b.length) :
    truncStep record b = POutcome.ok
      (if record.sz_original < record.sz_compressed then b.take record.sz_original else b) := by
  unfold truncStep
  by_cases hc : record.sz_original < record.sz_compressed
  · rw [if_pos hc, if_pos (h hc), if_pos hc]
  · rw [if_neg hc, if_neg hc]

theorem findIdx_nonzero_none (l : List UInt8)
    (hz : l.all (fun x => x == 0) = true) :
    l.reverse.findIdx? (fun x => x != 0) = none := by
  rw [List.findIdx?_eq_none_iff]
  intro x hx
  have hx2 : x ∈ l := List.mem_reverse.mp hx
  have := (List.all_eq_true.mp hz) x hx2
  simp only [bne, this]
  rfl

theorem paths_allZero_panic (dec : List UInt8 → String) (ice : Ice) (sec : List UInt8)
    (hz : (ice.decryptAuto sec).all (fun x => x == 0) = true) :
    PathRecord.many_from_encrypted_le_bytes dec ice sec = POutcome.panic := by
  unfold PathRecord.many_from_encrypted_le_bytes
  simp only [findIdx_nonzero_none _ hz]

theorem files_allZero_panic (dec : List UInt8 → String) (ice : Ice) (sec : List UInt8)
    (hz : (ice.decryptAuto sec).all (fun x => x == 0) = true) :
    FileRecord.many_from_encrypted_le_bytes dec ice sec = POutcome.panic := by
  unfold FileRecord.many_from_encrypted_le_bytes
  simp only [findIdx_nonzero_none _ hz]

theorem MetaFile.new_paths_panic (dec : List UInt8 → String) (ice : Ice) (buf : List UInt8)
    (v s1 e1 s2 e2 s3 e3 : Nat)
    (hv : readU32le buf 0 = some v)
    (h1 : block_range .Packages buf 4 = some (s1, e1)) (hb1 : e1 ≤ buf.length)
    (h2 : block_range .Metas buf e1 = some (s2, e2)) (hb2 : e2 ≤ buf.length)
    (h3 : block_range .Paths buf e2 = some (s3, e3)) (hb3 : e3 ≤ buf.length)
    (hp : PathRecord.many_from_encrypted_le_bytes dec ice (sliceBytes buf s3 e3)
      = POutcome.panic) :
    MetaFile.new dec ice buf = POutcome.panic := by
  simp only [MetaFile.new, hv, h1, h2, h3, if_pos hb1, if_pos hb2, if_pos hb3, hp]

theorem MetaFile.new_files_panic (dec : List UInt8 → String) (ice : Ice) (buf : List UInt8)
    (v s1 e1 s2 e2 s3 e3 s4 e4 : Nat) (ptbl : List PathRecord)
    (hv : readU32le buf 0 = some v)
    (h1 : block_range .Packages buf 4 = some (s1, e1)) (hb1 : e1 ≤ buf.length)
    (h2 : block_range .Metas buf e1 = some (s2, e2)) (hb2 : e2 ≤ buf.length)
    (h3 : block_range .Paths buf e2 = some (s3, e3)) (hb3 : e3 ≤ buf.length)
    (hp : PathRecord.many_from_encrypted_le_bytes dec ice (sliceBytes buf s3 e3)
      = POutcome.ok ptbl)
    (h4 : block_range .Files buf e3 = some (s4, e4)) (hb4 : e4 ≤ buf.length)
    (hf : FileRecord.many_from_encrypted_le_bytes dec ice (sliceBytes buf s4 e4)
      = POutcome.panic) :
    MetaFile.new dec ice buf = POutcome.panic := by
  simp only [MetaFile.new, hv, h1, h2, h3, h4, if_pos hb1, if_pos hb2, if_pos hb3,
    if_pos hb4, hp, hf]

theorem collectSlices_eq_spec (mt : List MetaRecord) (p : Pattern) (pt : List PathRecord)
    (hb : ∀ pr ∈ pt, p.isMatch pr.path = true →
      pr.file_range.start ≤ pr.file_range.stop ∧ pr.file_range.stop ≤ mt.length) :
    collectSlices mt p pt = some
      (((pt.filter (fun pr => p.isMatch pr.path)).map
        (fun pr => (mt.drop pr.file_range.start).take
          (pr.file_range.stop - pr.file_range.start))).flatten) := by
  induction pt with
  | nil => rfl
  | cons pr rest ih =>
    have hrest : ∀ q ∈ rest, p.isMatch q.path = true →
        q.file_range.start ≤ q.file_range.stop ∧ q.file_range.stop ≤ mt.length :=
      fun q hq => hb q (List.mem_cons_of_mem pr hq)
    cases hm : p.isMatch pr.path with
    | false =>
      simp [collectSlices, hm, ih hrest, List.filter_cons]
    | true =>
      have hpr := hb pr (List.mem_cons_self pr rest) hm
      simp [collectSlices, hm, sliceRange, if_pos hpr, ih hrest, List.filter_cons]

theorem collectSlices_mem (mt : List MetaRecord) (p : Pattern) (pt : List PathRecord)
    (t : List MetaRecord) (h : collectSlices mt p pt = some t) :
    ∀ x ∈ t, x ∈ mt := by
  induction pt generalizing t with
  | nil =>
    simp only [collectSlices, Option.some.injEq] at h
    subst h
    intro x hx
    cases hx
  | cons pr rest ih =>
    by_cases hm : p.isMatch pr.path
    · simp only [collectSlices, hm, if_true] at h
      cases hs : sliceRange mt pr.file_range with
      | none => rw [hs] at h; cases h
      | some s =>
        rw [hs] at h
        cases hrest : collectSlices mt p rest with
        | none => rw [hrest] at h; cases h
        | some t2 =>
          rw [hrest] at h
          simp only [Option.some.injEq] at h
          subst h
          intro x hx
          rcases List.mem_append.mp hx with hx | hx
          · unfold sliceRange at hs
            split at hs
            · simp only [Option.some.injEq] at hs
              subst hs
              exact List.drop_subset _ _ (List.take_subset _ _ hx)
            · cases hs
          · exact ih t2 hrest x hx
    · simp only [collectSlices, hm, if_false] at h
      exact ih t h

theorem keepByFile_mem (ft : List String) (p : Pattern) (mt t : List MetaRecord)
    (h : keepByFile ft p mt = some t) : ∀ x ∈ t, x ∈ mt := by
  induction mt generalizing t with
  | nil =>
    simp only [keepByFile, Option.some.injEq] at h
    subst h
    intro x hx
    cases hx
  | cons r rest ih =>
    unfold keepByFile at h
    cases hn : ft.get? r.file_id with
    | none => rw [hn] at h; cases h
    | some name =>
      rw [hn] at h
      cases hrest : keepByFile ft p rest with
      | none => rw [hrest] at h; cases h
      | some t2 =>
        rw [hrest] at h
        simp only [Option.some.injEq] at h
        subst h
        intro x hx
        by_cases hm : p.isMatch name
        · rw [if_pos hm] at hx
          rcases List.mem_cons.mp hx with rfl | hx
          · exact List.mem_cons_self _ _
          · exact List.mem_cons_of_mem _ (ih t2 hrest x hx)
        · rw [if_neg hm] at hx
          exact List.mem_cons_of_mem _ (ih t2 hrest x hx)

theorem filter_by_path_ok_inv (m : MetaFile) (p : Pattern) (r : MetaFile)
    (h : m.filter_by_path p = POutcome.ok r) :
    ∃ t, collectSlices m.meta_table p m.path_table = some t
      ∧ r = { m with meta_table := t } := by
  unfold MetaFile.filter_by_path at h
  by_cases hv : p.valid
  · simp only [hv, if_true] at h
    cases hc : collectSlices m.meta_table p m.path_table with
    | none => rw [hc] at h; exact POutcome.noConfusion h
    | some t =>
      rw [hc] at h
      cases h
      exact ⟨t, rfl, rfl⟩
  · simp only [hv] at h
    exact POutcome.noConfusion h

theorem filter_by_file_ok_inv (m : MetaFile) (p : Pattern) (r : MetaFile)
    (h : m.filter_by_file p = POutcome.ok r) :
    ∃ t, keepByFile m.file_table p m.meta_table = some t
      ∧ r = { m with meta_table := t } := by
  unfold MetaFile.filter_by_file at h
  by_cases hv : p.valid
  · simp only [hv, if_true] at h
    cases hc : keepByFile m.file_table p m.meta_table with
    | none => rw [hc] at h; exact POutcome.noConfusion h
    | some t =>
      rw [hc] at h
      cases h
      exact ⟨t, rfl, rfl⟩
  · simp only [hv] at h
    exact POutcome.noConfusion h

theorem validIdx_filter_by_path (m : MetaFile) (p : Pattern) (r : MetaFile)
    (h : m.filter_by_path p = POutcome.ok r) (hm : validIdx m) : validIdx r := by
  obtain ⟨t, hc, rfl⟩ := filter_by_path_ok_inv m p r h
  intro x hx
  exact hm x (collectSlices_mem _ _ _ _ hc x hx)

theorem validIdx_filter_by_file (m : MetaFile) (p : Pattern) (r : MetaFile)
    (h : m.filter_by_file p = POutcome.ok r) (hm : validIdx m) : validIdx r := by
  obtain ⟨t, hc, rfl⟩ := filter_by_file_ok_inv m p r h
  intro x hx
  exact hm x (keepByFile_mem _ _ _ _ hc x hx)

theorem validIdx_applyFilters (ops : List FilterOp) :
    ∀ m r : MetaFile, applyFilters m ops = POutcome.ok r → validIdx m → validIdx r := by
  induction ops with
  | nil =>
    intro m r h hm
    simp only [applyFilters] at h
    cases h
    exact hm
  | cons op ops ih =>
    intro m r h hm
    unfold applyFilters at h
    cases h2 : applyOp m op with
    | err => rw [h2] at h; exact POutcome.noConfusion h
    | panic => rw [h2] at h; exact POutcome.noConfusion h
    | ok m2 =>
      rw [h2] at h
      refine ih m2 r h ?_
      cases op with
      | byPath p => exact validIdx_filter_by_path m p m2 h2 hm
      | byFile p => exact validIdx_filter_by_file m p m2 h2 hm

/-- Pattern matching exactly the file name "c" (valid). -/
def patC : Pattern := ⟨true, fun s => s == "c"⟩

/-- Valid pattern that matches nothing. -/
def patNone : Pattern := ⟨true, fun _ => false⟩

/-- Fixture aggregate after filter_by_file with a nothing-matching pattern:
the meta table is empty while the path record still carries its original
bucket 0..2, which is now out of range. -/
def fixtureEmptyMeta : MetaFile := { fixtureMF with meta_table := [] }

/-- Result of filter_by_path on the fixture with an all-matching pattern. -/
def fixtureFiltered : MetaFile :=
  { fixtureMF with meta_table := [⟨9,0,0,2,4,2,2⟩, ⟨7,0,1,2,0,4,4⟩] }

/-- Result of filtering the fixture by path (all) then by file name "c". -/
def fixtureMFC : MetaFile := { fixtureMF with meta_table := [⟨7,0,1,2,0,4,4⟩] }

/-- Container truncated inside the Packages section: the count 1 is readable
but the computed end 20 exceeds the 8-byte buffer. -/
def truncBuf : List UInt8 := [0,0,0,0, 1,0,0,0]

/-- Fixture container with out-of-range foreign keys: same as fixtureBuf but
the meta record with file_id 1 instead carries path_id 9 and file_id 9, both
past the decoded tables. -/
def badIdBuf : List UInt8 :=
  [1,0,0,0,
   1,0,0,0,  2,0,0,0, 3,0,0,0, 4,0,0,0,
   2,0,0,0,
     7,0,0,0, 9,0,0,0, 9,0,0,0, 2,0,0,0, 0,0,0,0, 4,0,0,0, 4,0,0,0,
     9,0,0,0, 0,0,0,0, 0,0,0,0, 2,0,0,0, 4,0,0,0, 2,0,0,0, 2,0,0,0,
   10,0,0,0,
     0,0,0,0, 2,0,0,0, 97, 0,
   8,0,0,0,
     98,0, 99,0, 0,0,0,0]

/-- Aggregate produced by MetaFile.new on badIdBuf: construction succeeds,
records sorted by file_id, with the invalid indices untouched. -/
def badMF : MetaFile :=
  { ice := iceId
    root := ""
    version := 1
    package_table := [⟨2,3,4⟩]
    meta_table := [⟨9,0,0,2,4,2,2⟩, ⟨7,9,9,2,0,4,4⟩]
    path_table := [⟨"a", ⟨0,2⟩⟩]
    file_table := ["b", "c"] }

/-- Container whose Paths section decrypts to all zero bytes (the sections
before it frame correctly: zero packages, zero metas, an 8-byte Paths
section of zeros). -/
def zeroPathsBuf : List UInt8 :=
  [0,0,0,0, 0,0,0,0, 0,0,0,0, 8,0,0,0, 0,0,0,0,0,0,0,0]

/-- Container whose Paths section decodes to one well-formed record (path
"a", bucket 0..0) but whose 8-byte Files section decrypts to all zero
bytes. -/
def zeroFilesBuf : List UInt8 :=
  [0,0,0,0, 0,0,0,0, 0,0,0,0, 10,0,0,0,
   0,0,0,0, 0,0,0,0, 97, 0,
   8,0,0,0, 0,0,0,0,0,0,0,0]

/-- C1: immediately after a successful MetaFile construction (MetaFile::new),
the meta table is sorted ascending by file_id. -/
theorem C1_meta_table_sorted (dec : List UInt8 → String) (ice : Ice) (buf : List UInt8)
    (mf : MetaFile) (h : MetaFile.new dec ice buf = POutcome.ok mf) :
    mf.meta_table.Pairwise (fun a b => a.file_id ≤ b.file_id) := by
  obtain ⟨v, s1, e1, s2, e2, s3, e3, s4, e4, ptbl, ftbl,
    _, _, _, _, _, _, _, _, _, _, _, rfl⟩ := MetaFile.new_ok_inv dec ice buf mf h
  exact sortByFileId_sorted _

/-- Witness for C1 at the concrete fixture container, whose two meta records
arrive with file ids 1 and 0 and come out sorted. -/
theorem C1_meta_table_sorted_witness :
    fixtureMF.meta_table.Pairwise (fun a b => a.file_id ≤ b.file_id) :=
  C1_meta_table_sorted decAscii iceId fixtureBuf fixtureMF rfl

/-- C2 counterexample: the state is reached from the fixture construction by
a filter_by_file call that keeps nothing, so the meta table is empty while
the matching path record's file_range 0..2 is out of range; the following
filter_by_path call panics at the slice instead of replacing the meta table
with any concatenation of bucket slices. -/
theorem C2_counterexample :
    fixtureMF.filter_by_file patNone = POutcome.ok fixtureEmptyMeta
      ∧ fixtureEmptyMeta.filter_by_path patAll = POutcome.panic := ⟨rfl, rfl⟩

/-- C2 (amended): for every valid pattern and every state in which each
matching path record's file_range is a within-bounds half-open slice of the
meta table, filter_by_path replaces the meta table with exactly the
concatenation, in path-table order, of the slices meta_table[file_range] of
the matching path records; non-matching paths contribute no rows. -/
theorem C2_filter_by_path_spec (m : MetaFile) (p : Pattern) (hv : p.valid = true)
    (hb : ∀ pr ∈ m.path_table, p.isMatch pr.path = true →
      pr.file_range.start ≤ pr.file_range.stop ∧ pr.file_range.stop ≤ m.meta_table.length) :
    m.filter_by_path p = POutcome.ok { m with meta_table := pathFilterSpec m p } := by
  unfold MetaFile.filter_by_path
  simp only [hv, if_true, collectSlices_eq_spec m.meta_table p m.path_table hb]
  rfl

/-- Witness for C2 at the fixture aggregate with the all-matching pattern. -/
theorem C2_filter_by_path_spec_witness :
    fixtureMF.filter_by_path patAll
      = POutcome.ok { fixtureMF with meta_table := pathFilterSpec fixtureMF patAll } :=
  C2_filter_by_path_spec fixtureMF patAll rfl (by decide)

/-- C3: whenever filter_by_path or filter_by_file completes, the package,
path, and file tables are unchanged in content (hence in length); only the
meta table is replaced. -/
theorem C3_filters_preserve_tables (m : MetaFile) (p : Pattern) (r : MetaFile)
    (h : m.filter_by_path p = POutcome.ok r ∨ m.filter_by_file p = POutcome.ok r) :
    r.package_table = m.package_table ∧ r.path_table = m.path_table
      ∧ r.file_table = m.file_table := by
  rcases h with h | h
  · obtain ⟨t, _, rfl⟩ := filter_by_path_ok_inv m p r h
    exact ⟨rfl, rfl, rfl⟩
  · obtain ⟨t, _, rfl⟩ := filter_by_file_ok_inv m p r h
    exact ⟨rfl, rfl, rfl⟩

/-- Witness for C3 at the fixture aggregate and the all-matching pattern. -/
theorem C3_filters_preserve_tables_witness :
    fixtureFiltered.package_table = fixtureMF.package_table
      ∧ fixtureFiltered.path_table = fixtureMF.path_table
      ∧ fixtureFiltered.file_table = fixtureMF.file_table :=
  C3_filters_preserve_tables fixtureMF patAll fixtureFiltered (Or.inl rfl)

theorem decompressStage_length (record : MetaRecord) (codec : Codec) (dbss : Bool)
    (buf1 : List UInt8) (hq : CodecExact codec)
    (hlen : buf1.length = record.sz_compressed) (b : List UInt8)
    (h : decompressStage record codec dbss buf1 = POutcome.ok b) :
    b.length = record.sz_original := by
  unfold decompressStage at h
  by_cases ht : record.sz_compressed < record.sz_original
      ∨ (dbss = false ∧ buf1.head? = some 110)
  · rw [if_pos ht] at h
    cases hd : codec.decompress buf1 record.sz_original with
    | none => simp only [hd] at h; exact POutcome.noConfusion h
    | some d =>
      simp only [hd] at h
      have hdl : d.length = record.sz_original := hq _ _ _ hd
      unfold truncStep at h
      by_cases h1 : record.sz_original < record.sz_compressed
      · rw [if_pos h1, if_pos (by omega)] at h
        cases h
        rw [List.length_take]
        omega
      · rw [if_neg h1] at h
        cases h
        exact hdl
  · rw [if_neg ht] at h
    have ht1 : ¬ record.sz_compressed < record.sz_original := fun hc => ht (Or.inl hc)
    unfold truncStep at h
    by_cases h1 : record.sz_original < record.sz_compressed
    · rw [if_pos h1, if_pos (by omega)] at h
      cases h
      rw [List.length_take]
      omega
    · rw [if_neg h1] at h
      cases h
      omega

/-- C4: whenever read succeeds on a record, the buffer returned at Raw level
has length exactly sz_compressed, and the buffer returned at Decompress
level has length exactly sz_original (given the fixed contracts of the
cipher, which decrypts 8-byte blocks in place, and of the codec, which
decompresses to the requested size). -/
theorem C4_read_lengths (m : MetaFile) (record : MetaRecord) (pkg : Option (List UInt8))
    (codec : Codec) (hq : CodecExact codec) (hice : IceBlockLen m.ice) :
    (∀ b, m.read record .Raw pkg codec = POutcome.ok b
      → b.length = record.sz_compressed) ∧
    (∀ b, m.read record .Decompress pkg codec = POutcome.ok b
      → b.length = record.sz_original) := by
  constructor
  · intro b h
    obtain ⟨content, name, rfl, hb, hname, hbody⟩ := MetaFile.read_ok_inv _ _ _ _ _ _ h
    rw [MetaFile.readBody_raw] at hbody
    cases hbody
    exact rawBytes_length record content hb
  · intro b h
    obtain ⟨content, name, rfl, hb, hname, hbody⟩ := MetaFile.read_ok_inv _ _ _ _ _ _ h
    rw [MetaFile.readBody_decompress] at hbody
    refine decompressStage_length record codec (name.endsWith ".dbss") _ hq ?_ b hbody
    split
    · rw [length_decryptBuf m.ice hice]
      exact rawBytes_length record content hb
    · exact rawBytes_length record content hb

/-- Witness for C4: the fixture record with offset 4, sz_compressed 2 and
sz_original 2 read from a six-byte package file yields two bytes at both
Raw and Decompress levels. -/
theorem C4_read_lengths_witness :
    ([5, 6] : List UInt8).length = (2 : Nat) ∧ ([5, 6] : List UInt8).length = (2 : Nat) := by
  have h := C4_read_lengths fixtureMF ⟨9,0,0,2,4,2,2⟩ (some [1,2,3,4,5,6]) codecZeros
    codecZeros_exact iceId_blockLen
  exact ⟨h.1 [5, 6] rfl, h.2 [5, 6] rfl⟩

/-- C5: at Decompress level, read performs exactly the Decrypt-level work and
then runs the codec precisely when sz_original exceeds sz_compressed, or when
the file name is not of the reserved .dbss kind and the first buffer byte is
the codec sentinel 0x6E; otherwise the buffer is left as-is; and after this
step the buffer is truncated to exactly sz_original bytes when sz_original is
smaller than sz_compressed (cipher and codec taken at their fixed
contracts). -/
theorem C5_decompress_step (m : MetaFile) (record : MetaRecord) (pkg : Option (List UInt8))
    (codec : Codec) (b : List UInt8) (hq : CodecExact codec) (hice : IceBlockLen m.ice)
    (h : m.read record .Decrypt pkg codec = POutcome.ok b) :
    m.read record .Decompress pkg codec =
      if record.sz_compressed < record.sz_original
          ∨ ((m.file_table.getD record.file_id "").endsWith ".dbss" = false
             ∧ b.head? = some 110) then
        match codec.decompress b record.sz_original with
        | none => POutcome.err
        | some d => POutcome.ok (if record.sz_original < record.sz_compressed
            then d.take record.sz_original else d)
      else POutcome.ok (if record.sz_original < record.sz_compressed
          then b.take record.sz_original else b) := by
  obtain ⟨content, name, rfl, hb, hname, hbody⟩ := MetaFile.read_ok_inv _ _ _ _ _ _ h
  have hgetD : m.file_table.getD record.file_id "" = name := by
    simp [List.getD_eq_getElem?_getD, ← List.get?_eq_getElem?, hname]
  rw [MetaFile.readBody_decrypt] at hbody
  rw [POutcome.ok.injEq] at hbody
  have hblen : b.length = record.sz_compressed := by
    rw [← hbody]
    split
    · rw [length_decryptBuf m.ice hice]
      exact rawBytes_length record content hb
    · exact rawBytes_length record content hb
  rw [MetaFile.read_eq_body m record .Decompress content name codec hb hname,
    MetaFile.readBody_decompress, hbody, hgetD]
  unfold decompressStage
  by_cases ht : record.sz_compressed < record.sz_original
      ∨ (name.endsWith ".dbss" = false ∧ b.head? = some 110)
  · rw [if_pos ht, if_pos ht]
    cases hd : codec.decompress b record.sz_original with
    | none => rfl
    | some d =>
      have hdl : d.length = record.sz_original := hq _ _ _ hd
      exact truncStep_eq record d (by omega)
  · rw [if_neg ht, if_neg ht]
    exact truncStep_eq record b (by omega)

/-- Witness for C5: a record with equal sizes whose decrypted first byte is
the sentinel 0x6E triggers the codec, which returns eight zero bytes. -/
theorem C5_decompress_step_witness :
    fixtureMF.read ⟨0,0,0,2,0,8,8⟩ .Decompress (some [110,1,2,3,4,5,6,7]) codecZeros
      = POutcome.ok (List.replicate 8 0) := by
  rw [C5_decompress_step fixtureMF ⟨0,0,0,2,0,8,8⟩ (some [110,1,2,3,4,5,6,7]) codecZeros
    [110,1,2,3,4,5,6,7] codecZeros_exact iceId_blockLen rfl]
  rfl

/-- C6 counterexample: on a container truncated inside the Packages section
(count readable, computed end 20 past the 8-byte buffer), construction
panics at the out-of-range slice; no parse error is returned to the
caller. -/
theorem C6_counterexample : MetaFile.new decAscii iceId truncBuf = POutcome.panic := rfl

/-- C6 (amended): construction never succeeds when a computed section end
lies past the end of the buffer: a successful MetaFile::new implies every
computed section end is at most the buffer length.  (The failure on a
violating buffer is a panic at the out-of-range slice; a parse error is
returned only when the 4-byte count itself cannot be read.) -/
theorem C6_new_ok_bounds (dec : List UInt8 → String) (ice : Ice) (buf : List UInt8)
    (mf : MetaFile) (h : MetaFile.new dec ice buf = POutcome.ok mf) :
    ∀ e ∈ sectionEnds buf, e ≤ buf.length := by
  obtain ⟨v, s1, e1, s2, e2, s3, e3, s4, e4, ptbl, ftbl,
    hv, h1, hb1, h2, hb2, h3, hb3, hp, h4, hb4, hf, _⟩ :=
    MetaFile.new_ok_inv dec ice buf mf h
  intro e he
  simp only [sectionEnds, h1, h2, h3, h4, List.mem_cons, List.not_mem_nil, or_false] at he
  rcases he with rfl | rfl | rfl | rfl <;> assumption

/-- Witness for C6 at the well-formed fixture container. -/
theorem C6_new_ok_bounds_witness :
    (sectionEnds fixtureBuf).all (fun e => decide (e ≤ fixtureBuf.length)) = true := by
  have h := C6_new_ok_bounds decAscii iceId fixtureBuf fixtureMF rfl
  rw [List.all_eq_true]
  intro e he
  exact decide_eq_true (h e he)

/-- C7 counterexample: on a syntactically invalid pattern both filters panic
(at Regex::new(..).unwrap()); no error value is returned to the caller. -/
theorem C7_counterexample :
    fixtureMF.filter_by_path patBad = POutcome.panic
      ∧ fixtureMF.filter_by_file patBad = POutcome.panic := ⟨rfl, rfl⟩

/-- C7 (amended): for every syntactically invalid regex pattern,
filter_by_path and filter_by_file fail, but by panicking at pattern
compilation rather than returning an error; the panic happens before any
mutation, so the meta table is left in its prior state. -/
theorem C7_invalid_pattern_panics (m : MetaFile) (p : Pattern) (h : p.valid = false) :
    m.filter_by_path p = POutcome.panic ∧ m.filter_by_file p = POutcome.panic := by
  unfold MetaFile.filter_by_path MetaFile.filter_by_file
  simp [h]

/-- Witness for C7 at the fixture aggregate and the invalid pattern. -/
theorem C7_invalid_pattern_panics_witness :
    patBad.valid = false ∧
      (fixtureMF.filter_by_path patBad = POutcome.panic
        ∧ fixtureMF.filter_by_file patBad = POutcome.panic) :=
  ⟨rfl, C7_invalid_pattern_panics fixtureMF patBad rfl⟩

/-- C8 counterexample: MetaFile::new performs no validation of path_id or
file_id, so construction succeeds on a container whose meta record carries
path_id 9 and file_id 9 while the path and file tables have one and two
entries: the claimed post-construction validity fails. -/
theorem C8_counterexample :
    MetaFile.new decAscii iceId badIdBuf = POutcome.ok badMF ∧
    badMF.meta_table.all (fun r => decide (r.path_id < badMF.path_table.length)
      && decide (r.file_id < badMF.file_table.length)) = false := ⟨rfl, rfl⟩

/-- C8 (amended): construction does not establish index validity; but for
any successfully constructed aggregate whose meta records all carry valid
path_id and file_id indices, every record surviving any sequence of
successful filter_by_path and filter_by_file calls still carries valid
indices into the unchanged path and file tables. -/
theorem C8_valid_indices_preserved (dec : List UInt8 → String) (ice : Ice)
    (buf : List UInt8) (mf : MetaFile) (ops : List FilterOp) (mf2 : MetaFile)
    (_hnew : MetaFile.new dec ice buf = POutcome.ok mf) (hvalid : validIdx mf)
    (hops : applyFilters mf ops = POutcome.ok mf2) : validIdx mf2 :=
  validIdx_applyFilters ops mf mf2 hops hvalid

/-- Witness for C8: the fixture construction followed by a path filter and a
file filter keeping only the record named "c". -/
theorem C8_valid_indices_preserved_witness :
    fixtureMFC.meta_table.all (fun r => decide (r.path_id < fixtureMFC.path_table.length)
      && decide (r.file_id < fixtureMFC.file_table.length)) = true := by
  have h := C8_valid_indices_preserved decAscii iceId fixtureBuf fixtureMF
    [FilterOp.byPath patAll, FilterOp.byFile patC] fixtureMFC rfl (by decide) rfl
  rw [List.all_eq_true]
  intro r hr
  have h2 := h r hr
  simp only [Bool.and_eq_true, decide_eq_true_eq]
  exact ⟨h2.1, h2.2⟩

/-- C9: when the decrypted Paths or Files section contains no non-zero byte,
the corresponding table decoder panics (the unwrap on the reversed position
search) instead of returning an error, and MetaFile construction on such a
buffer panics rather than returning a Result — both for a buffer whose
Paths section decrypts to all zeros (buf, first hypothesis block) and for a
buffer whose Paths section decodes fine but whose Files section decrypts to
all zeros (buf2, second hypothesis block); so construction can be total only
when both decrypted sections contain a non-zero byte. -/
theorem C9_all_zero_sections_panic (dec : List UInt8 → String) (ice : Ice)
    (buf buf2 : List UInt8) (v s1 e1 s2 e2 s3 e3 : Nat)
    (hv : readU32le buf 0 = some v)
    (h1 : block_range .Packages buf 4 = some (s1, e1)) (hb1 : e1 ≤ buf.length)
    (h2 : block_range .Metas buf e1 = some (s2, e2)) (hb2 : e2 ≤ buf.length)
    (h3 : block_range .Paths buf e2 = some (s3, e3)) (hb3 : e3 ≤ buf.length)
    (hz : ((ice.decryptAuto (sliceBytes buf s3 e3)).all (fun x => x == 0)) = true)
    (w t1 f1 t2 f2 t3 f3 t4 f4 : Nat) (ptbl : List PathRecord)
    (gv : readU32le buf2 0 = some w)
    (g1 : block_range .Packages buf2 4 = some (t1, f1)) (gb1 : f1 ≤ buf2.length)
    (g2 : block_range .Metas buf2 f1 = some (t2, f2)) (gb2 : f2 ≤ buf2.length)
    (g3 : block_range .Paths buf2 f2 = some (t3, f3)) (gb3 : f3 ≤ buf2.length)
    (gp : PathRecord.many_from_encrypted_le_bytes dec ice (sliceBytes buf2 t3 f3)
      = POutcome.ok ptbl)
    (g4 : block_range .Files buf2 f3 = some (t4, f4)) (gb4 : f4 ≤ buf2.length)
    (gz : ((ice.decryptAuto (sliceBytes buf2 t4 f4)).all (fun x => x == 0)) = true) :
    MetaFile.new dec ice buf = POutcome.panic ∧
    MetaFile.new dec ice buf2 = POutcome.panic ∧
    PathRecord.many_from_encrypted_le_bytes dec ice (sliceBytes buf s3 e3)
      = POutcome.panic ∧
    FileRecord.many_from_encrypted_le_bytes dec ice (sliceBytes buf2 t4 f4)
      = POutcome.panic := by
  have hpz := paths_allZero_panic dec ice _ hz
  have hfz := files_allZero_panic dec ice _ gz
  exact ⟨MetaFile.new_paths_panic dec ice buf v s1 e1 s2 e2 s3 e3
      hv h1 hb1 h2 hb2 h3 hb3 hpz,
    MetaFile.new_files_panic dec ice buf2 w t1 f1 t2 f2 t3 f3 t4 f4 ptbl
      gv g1 gb1 g2 gb2 g3 gb3 gp g4 gb4 hfz,
    hpz, hfz⟩

/-- Witness for C9 at two concrete containers: one with an all-zero Paths
section, and one whose Paths section decodes to a record while its Files
section is all zero; construction panics on both. -/
theorem C9_all_zero_sections_panic_witness :
    MetaFile.new decAscii iceId zeroPathsBuf = POutcome.panic ∧
    MetaFile.new decAscii iceId zeroFilesBuf = POutcome.panic ∧
    PathRecord.many_from_encrypted_le_bytes decAscii iceId (sliceBytes zeroPathsBuf 16 24)
      = POutcome.panic ∧
    FileRecord.many_from_encrypted_le_bytes decAscii iceId (sliceBytes zeroFilesBuf 30 38)
      = POutcome.panic :=
  C9_all_zero_sections_panic decAscii iceId zeroPathsBuf zeroFilesBuf 0 8 8 12 12 16 24
    rfl rfl (by decide) rfl (by decide) rfl (by decide) (by decide)
    0 8 8 12 12 16 26 30 38 [⟨"a", ⟨0, 0⟩⟩]
    rfl rfl (by decide) rfl (by decide) rfl (by decide) rfl rfl (by decide) (by decide)

/-- C10: at Decrypt level, for a record whose file name is not of the .dbss
kind, read decrypts exactly the complete 8-byte blocks of the raw buffer in
order and returns the final partial block (the bytes past position
8 * (length / 8)) unmodified. -/
theorem C10_decrypt_aligned (m : MetaFile) (record : MetaRecord)
    (pkg : Option (List UInt8)) (codec : Codec) (raw : List UInt8)
    (hice : IceBlockLen m.ice)
    (hdb : (m.file_table.getD record.file_id "").endsWith ".dbss" = false)
    (h : m.read record .Raw pkg codec = POutcome.ok raw) :
    m.read record .Decrypt pkg codec = POutcome.ok (alignedBlockDecrypt m.ice raw) ∧
    (alignedBlockDecrypt m.ice raw).drop (8 * (raw.length / 8))
      = raw.drop (8 * (raw.length / 8)) := by
  obtain ⟨content, name, rfl, hb, hname, hbody⟩ := MetaFile.read_ok_inv _ _ _ _ _ _ h
  rw [MetaFile.readBody_raw] at hbody
  have hgetD : m.file_table.getD record.file_id "" = name := by
    simp [List.getD_eq_getElem?_getD, ← List.get?_eq_getElem?, hname]
  have hdbn : name.endsWith ".dbss" = false := by rw [← hgetD]; exact hdb
  have hraw : rawBytes record content = raw := by cases hbody; rfl
  constructor
  · rw [MetaFile.read_eq_body m record .Decrypt content name codec hb hname,
      MetaFile.readBody_decrypt, hraw, if_pos hdbn, decryptBuf_eq,
      decryptChunks8_eq_aligned]
  · exact alignedBlockDecrypt_drop m.ice hice raw

/-- Witness for C10 at a twelve-byte raw buffer: one full block is
decrypted and the four trailing bytes are returned unmodified. -/
theorem C10_decrypt_aligned_witness :
    fixtureMF.read ⟨0,0,1,2,0,12,12⟩ .Decrypt (some [1,2,3,4,5,6,7,8,9,10,11,12]) codecZeros
      = POutcome.ok (alignedBlockDecrypt fixtureMF.ice [1,2,3,4,5,6,7,8,9,10,11,12]) ∧
    (alignedBlockDecrypt fixtureMF.ice [1,2,3,4,5,6,7,8,9,10,11,12]).drop 8
      = ([1,2,3,4,5,6,7,8,9,10,11,12] : List UInt8).drop 8 :=
  C10_decrypt_aligned fixtureMF ⟨0,0,1,2,0,12,12⟩ (some [1,2,3,4,5,6,7,8,9,10,11,12])
    codecZeros [1,2,3,4,5,6,7,8,9,10,11,12] iceId_blockLen rfl rfl
